import Mathlib

/-!
Verification of `pyramid_autodoc` (Sphinx extension converting pyramid routes
to reStructuredText nodes) against its natural-language specification.

The development shallowly embeds `pyramid_autodoc/__init__.py`:
strings are `List Char`, the docutils node tree is an inductive type, and the
external collaborators (the docutils parser, `http_directive`,
`nested_parse_with_titles`, and the pyramid bootstrap/mapper) are abstracted
as function parameters, since they live outside this repository.
-/

namespace PyramidAutodoc

/-- Python whitespace characters, as recognised by `str.strip` / `str.split`:
ASCII whitespace (TAB, LF, VT, FF, CR, FS, GS, RS, US, SPACE), NEL, NBSP and
the Unicode space/line/paragraph separators. -/
def isPySpace (c : Char) : Bool :=
  let n := c.toNat
  (9 ≤ n && n ≤ 13) || n = 32 || (28 ≤ n && n ≤ 31) || n = 133 || n = 160 ||
  n = 0x1680 || (0x2000 ≤ n && n ≤ 0x200A) || n = 0x2028 || n = 0x2029 ||
  n = 0x202F || n = 0x205F || n = 0x3000

/-- Line-boundary characters of Python `str.splitlines`: LF, VT, FF, CR,
FS, GS, RS, NEL, LINE SEPARATOR, PARAGRAPH SEPARATOR. -/
def isLineBoundary (c : Char) : Bool :=
  let n := c.toNat
  n = 10 || n = 11 || n = 12 || n = 13 || n = 28 || n = 29 || n = 30 ||
  n = 133 || n = 0x2028 || n = 0x2029

/-- Python `str.expandtabs()` with the default tab size of 8: each TAB is
replaced by the spaces needed to reach the next multiple-of-8 column; the
column counter advances by one for every other character and resets to zero
at LF and CR. -/
def expandtabsAux : List Char → Nat → List Char
  | [], _ => []
  | c :: cs, col =>
    if c = '\t' then
      let pad := 8 - col % 8
      List.replicate pad ' ' ++ expandtabsAux cs (col + pad)
    else if c.toNat = 10 || c.toNat = 13 then
      c :: expandtabsAux cs 0
    else
      c :: expandtabsAux cs (col + 1)

/-- Python `str.expandtabs()` on a whole string. -/
def expandtabs (s : List Char) : List Char := expandtabsAux s 0

/-- Python `str.splitlines()` (without keepends): split at every
line-boundary character, treating CR LF as a single boundary; the terminator
of the last line may be absent. -/
def splitlines : List Char → List (List Char)
  | [] => []
  | '\r' :: '\n' :: cs => [] :: splitlines cs
  | c :: cs =>
    if isLineBoundary c then
      [] :: splitlines cs
    else
      match splitlines cs with
      | [] => [[c]]
      | l :: ls => (c :: l) :: ls

/-- Python `str.lstrip()`. -/
def pyLstrip (l : List Char) : List Char := l.dropWhile isPySpace

/-- Python `str.rstrip()`. -/
def pyRstrip (l : List Char) : List Char := (l.reverse.dropWhile isPySpace).reverse

/-- Python `str.strip()`. -/
def pyStrip (l : List Char) : List Char := pyLstrip (pyRstrip l)

/-- Width of the leading whitespace of a line:
`len(line) - len(line.lstrip())`. -/
def lineIndent (l : List Char) : Nat := l.length - (pyLstrip l).length

/-- The minimum-indentation computation of `trim`: `indent` starts at
`sys.maxsize` (modelled by `none`) and is folded down with `min` over the
indentation of every line that is non-blank after `lstrip`. -/
def minIndent : List (List Char) → Option Nat
  | [] => none
  | l :: ls =>
    if (pyLstrip l).isEmpty then
      minIndent ls
    else
      match minIndent ls with
      | none => some (lineIndent l)
      | some i => some (min (lineIndent l) i)

/-- The loop `while trimmed and not trimmed[0]: trimmed.pop(0)`:
drop leading empty lines. -/
def dropLeadingBlanks : List (List Char) → List (List Char)
  | [] => []
  | l :: ls => if l.isEmpty then dropLeadingBlanks ls else l :: ls

/-- The loop `while trimmed and not trimmed[-1]: trimmed.pop()`:
drop trailing empty lines. -/
def dropTrailingBlanks (ls : List (List Char)) : List (List Char) :=
  (dropLeadingBlanks ls.reverse).reverse

/-- Joining the trimmed lines back with newlines, as in the final
`return` of `trim`. -/
def joinLines : List (List Char) → List Char
  | [] => []
  | [l] => l
  | l :: ls => l ++ '\n' :: joinLines ls

/-- The line-processing core of `trim` for a non-empty docstring:
expand tabs, split into lines, compute the minimum indentation over all
lines but the first (blank lines ignored), strip the first line, remove the
minimum indentation and trailing whitespace from every other line (other
lines are dropped entirely when every one of them is blank, mirroring the
`indent < sys.maxsize` guard), and pop trailing then leading blank lines. -/
def trimLines (s : List Char) : List (List Char) :=
  match splitlines (expandtabs s) with
  | [] => []
  | first :: rest =>
    let trimmed := pyStrip first ::
      (match minIndent rest with
       | none => []
       | some i => rest.map (fun l => pyRstrip (l.drop i)))
    dropLeadingBlanks (dropTrailingBlanks trimmed)

/-- Whether the first line of `docstring.expandtabs().splitlines()` is blank
after stripping (`true` as well when there are no lines at all).  Inputs whose
first line is blank are the ones on which the leading-blank-line pop can
promote a later, still-indented line to the first position. -/
def firstLineBlank (s : List Char) : Bool :=
  ((splitlines (expandtabs s)).head?.map (fun f => (pyStrip f).isEmpty)).getD true

/-- The function `trim(docstring)` from `pyramid_autodoc/__init__.py`: `None` and the
empty string map to the empty string; otherwise the PEP-257 docstring
normalisation is applied and the lines are rejoined with newlines. -/
def trim (docstring : Option String) : String :=
  match docstring with
  | none => ""
  | some s => if s.data.isEmpty then ("") else String.mk (joinLines (trimLines s.data))

/-- The docutils document nodes this extension builds.  The node tree is an
opaque structure owned by docutils; only the constructors actually used by
`pyramid_autodoc` are modelled, plus `text` for leaf content produced by an
abstracted parser. -/
inductive Node where
  | section' (ids : List String) (children : List Node)
  | title (s : String)
  | table (children : List Node)
  | tgroup (cols : Nat) (children : List Node)
  | colspec (colwidth : Nat)
  | tbody (children : List Node)
  | row (children : List Node)
  | entry (children : List Node)
  | paragraph (children : List Node)
  | text (s : String)

/-- One `(name, pattern, view, method, docs)` tuple as yielded by
`get_route_data` (a collaborator from `pyramid_autodoc.utils`, outside the
embedded module); `docs` may be `None`. -/
structure RouteTuple where
  name : String
  pattern : String
  view : String
  method : String
  docs : Option String
deriving DecidableEq

/-- One dictionary appended to `mapped_routes` by `RouteDirective.get_routes`. -/
structure MappedRoute where
  name : String
  pattern : String
  view : String
  method : String
  docs : String
deriving DecidableEq

/-- The dictionary built for one kept tuple: the five fields, with `trim`
applied to the docstring. -/
def mkMappedRoute (t : RouteTuple) : MappedRoute :=
  ⟨t.name, t.pattern, t.view, t.method, trim t.docs⟩

/-- The mapping loop of `RouteDirective.get_routes`.  Bootstrap and the route
mapper are external; their combined outcome is the `route_data` argument, one
tuple list per route.  A tuple is skipped exactly when `undocumented` was
supplied and contains its view. -/
def get_routes (route_data : List (List RouteTuple))
    (undocumented : Option (List String)) : List MappedRoute :=
  (route_data.map (fun rd => rd.filterMap (fun t =>
    match undocumented with
    | some u => if u.contains t.view then none else some (mkMappedRoute t)
    | none => some (mkMappedRoute t)))).flatten

/-- The function `rst2node(doc_name, data)`: returns `None` for empty input; otherwise
parses `data` (the docutils parser is external, abstracted as `parse`) and
returns the single resulting child directly, or wraps the children in a
paragraph node.  `doc_name` only labels the transient document. -/
def rst2node (parse : String → List Node) (doc_name : String)
    (data : String) : Option Node :=
  if data = "" then none
  else
    match parse data with
    | [c] => some c
    | children => some (Node.paragraph children)

/-- The `get_row` helper of `make_custom_rst`: one table row with one entry
per column text, each entry holding a paragraph with that text. -/
def get_row (column_texts : List String) : Node :=
  Node.row (column_texts.map (fun t => Node.entry [Node.paragraph [Node.text t]]))

/-- The `real_table` built by `make_custom_rst` for one route: a table with a
two-column tgroup (colwidths 10 and 90) and a body of three rows. -/
def real_table (r : MappedRoute) : Node :=
  Node.table [Node.tgroup 2 [Node.colspec 10, Node.colspec 90,
    Node.tbody [get_row ["Module", r.view],
                get_row ["Request Method", r.method],
                get_row ["Route Name", r.name]]]]

/-- The method `RouteDirective.make_custom_rst`: one section per route, id taken from the
monotonically increasing serial number of the build environment (modelled by
the `serial` parameter), title = pattern, then the attribute table, then — only when the
docs are non-empty — the node returned by `rst2node`. -/
def make_custom_rst (parse : String → List Node) :
    Nat → List MappedRoute → List Node
  | _, [] => []
  | serial, r :: rs =>
    Node.section' ["route-" ++ toString serial]
      ([Node.title r.pattern, real_table r] ++
        (if r.docs = "" then [] else (rst2node parse r.view r.docs).toList))
    :: make_custom_rst parse (serial + 1) rs

/-- The method `RouteDirective.make_httpdomain_rst`, with its accumulating `result`
`ViewList` made explicit: for each route the lines produced by the external
`http_directive` helper are appended to `result`, and then the WHOLE current
`result` is parsed by `nested_parse_with_titles` (abstracted as
`nested_parse`) and the produced nodes appended to the children of the section. -/
def make_httpdomain_rstAux (http_directive : String → String → String → List String)
    (nested_parse : List String → List Node) :
    List String → List MappedRoute → List Node
  | _, [] => []
  | result, route :: rest =>
    let result' := result ++ http_directive route.method route.pattern route.docs
    nested_parse result' ++ make_httpdomain_rstAux http_directive nested_parse result' rest

/-- The wrapper `make_httpdomain_rst` starts from an empty `ViewList` and returns the
children accumulated over the loop. -/
def make_httpdomain_rst (http_directive : String → String → String → List String)
    (nested_parse : List String → List Node)
    (mapped_routes : List MappedRoute) : List Node :=
  make_httpdomain_rstAux http_directive nested_parse [] mapped_routes

/-- Modelled from the spec (§4.4 Renderer: HTTP-Domain), which demands that
each record markup block be parsed independently: every record block produced
by `http_directive` is parsed on its own and the resulting nodes are
concatenated in record order. -/
def make_httpdomain_rst_indep (http_directive : String → String → String → List String)
    (nested_parse : List String → List Node)
    (mapped_routes : List MappedRoute) : List Node :=
  (mapped_routes.map (fun route =>
    nested_parse (http_directive route.method route.pattern route.docs))).flatten

/-- Python `str.split()` with no separator: split on runs of whitespace,
discarding empty fields. -/
def splitWsAux : List Char → List Char → List (List Char)
  | [], acc => if acc.isEmpty then [] else [acc.reverse]
  | c :: cs, acc =>
    if isPySpace c then
      if acc.isEmpty then splitWsAux cs [] else acc.reverse :: splitWsAux cs []
    else splitWsAux cs (c :: acc)

/-- The call `undocumented.split()` in `RouteDirective.run`. -/
def pySplit (s : String) : List String := (splitWsAux s.data []).map String.mk

/-- The observable steps of `RouteDirective.run`, in order: the route
extraction that is always performed, then either the returned node list or
the raised exception. -/
inductive RunEvent where
  | got_routes (routes : List MappedRoute)
  | returned (nodes : List Node)
  | raised (msg : String)

/-- The two optional directive settings read by `run`. -/
structure DirectiveOptions where
  format : Option String
  undoc_endpoints : Option String

/-- The method `RouteDirective.run` as an event trace: read options (`format` defaults
to `"custom"`, `undoc-endpoints` is whitespace-split when present), extract
the routes, then dispatch on `format`, raising the Unsupported-format
exception for any other value. -/
def run (opts : DirectiveOptions) (route_data : List (List RouteTuple))
    (parse : String → List Node)
    (http_directive : String → String → String → List String)
    (nested_parse : List String → List Node) (serial : Nat) : List RunEvent :=
  let format := opts.format.getD ("custom")
  let undocumented := opts.undoc_endpoints.map pySplit
  let routes := get_routes route_data undocumented
  RunEvent.got_routes routes ::
    (if format = "custom" then
      [RunEvent.returned (make_custom_rst parse serial routes)]
    else if format = "httpdomain" then
      [RunEvent.returned (make_httpdomain_rst http_directive nested_parse routes)]
    else
      [RunEvent.raised ("Unsupported format " ++ format)])

/-- The trimming pipeline as the specification words it (C3): expand tabs,
split into lines, strip the first line independently, and from every other
line remove the minimum indentation computed over the non-blank non-first
lines and then the trailing whitespace.  (When every non-first line is blank
the minimum defaults to 0; such lines are blank either way.) -/
def trimLinesSpec (s : List Char) : List (List Char) :=
  match splitlines (expandtabs s) with
  | [] => []
  | first :: rest =>
    pyStrip first :: rest.map (fun l => pyRstrip (l.drop ((minIndent rest).getD 0)))

/-- The parsed-docs fragment of a section as the specification words it:
the single parsed node, or a paragraph wrapping all parsed nodes. -/
def specFragment (parse : String → List Node) (r : MappedRoute) : Node :=
  match parse r.docs with
  | [c] => c
  | children => Node.paragraph children

/-- One rendered section as the specification words it (C6): title = the
pattern of the record; a two-column table (widths 10 and 90) whose rows are, in
order, Module→view, Request Method→method, Route Name→name; and exactly one
parsed fragment when docs is non-empty, none when it is empty. -/
def specSection (parse : String → List Node) (serial : Nat) (r : MappedRoute) : Node :=
  Node.section' ["route-" ++ toString serial]
    ([Node.title r.pattern,
      Node.table [Node.tgroup 2 [Node.colspec 10, Node.colspec 90,
        Node.tbody [get_row ["Module", r.view],
                    get_row ["Request Method", r.method],
                    get_row ["Route Name", r.name]]]]] ++
      (if r.docs = "" then [] else [specFragment parse r]))

/-- The custom renderer as the specification words it: one section per record
in input order, with consecutive serial numbers. -/
def make_custom_rst_spec (parse : String → List Node) (serial : Nat)
    (rs : List MappedRoute) : List Node :=
  rs.enum.map (fun p => specSection parse (serial + p.1) p.2)

/-! ### Lemmas about the Python string primitives -/

theorem getLast?_cons_of_ne {α : Type} (c : α) {t : List α} (ht : t ≠ []) :
    (c :: t).getLast? = t.getLast? := by
  rw [List.getLast?_eq_head?_reverse, List.getLast?_eq_head?_reverse]
  simp only [List.reverse_cons]
  rw [List.head?_append_of_ne_nil]
  simpa using ht

theorem mem_pyLstrip {l : List Char} {c : Char} (h : c ∈ pyLstrip l) : c ∈ l :=
  (List.dropWhile_sublist isPySpace).mem h

theorem mem_pyRstrip {l : List Char} {c : Char} (h : c ∈ pyRstrip l) : c ∈ l := by
  have := (List.dropWhile_sublist (l := l.reverse) isPySpace).mem (List.mem_reverse.mp h)
  exact List.mem_reverse.mp this

theorem mem_pyStrip {l : List Char} {c : Char} (h : c ∈ pyStrip l) : c ∈ l :=
  mem_pyRstrip (mem_pyLstrip h)

theorem pyLstrip_eq_nil_iff {l : List Char} :
    pyLstrip l = [] ↔ ∀ c ∈ l, isPySpace c = true :=
  List.dropWhile_eq_nil_iff

theorem pyRstrip_eq_nil_iff {l : List Char} :
    pyRstrip l = [] ↔ ∀ c ∈ l, isPySpace c = true := by
  unfold pyRstrip
  rw [List.reverse_eq_nil_iff, List.dropWhile_eq_nil_iff]
  constructor
  · intro h c hc
    exact h c (List.mem_reverse.mpr hc)
  · intro h c hc
    exact h c (List.mem_reverse.mp hc)

theorem pyLstrip_head?_not_space {l : List Char} {c : Char}
    (h : (pyLstrip l).head? = some c) : isPySpace c = false := by
  have := List.head?_dropWhile_not isPySpace l
  rw [show (List.dropWhile isPySpace l) = pyLstrip l from rfl, h] at this
  exact this

theorem pyRstrip_getLast?_not_space {l : List Char} {c : Char}
    (h : (pyRstrip l).getLast? = some c) : isPySpace c = false := by
  have hrev : (pyRstrip l).getLast? = (l.reverse.dropWhile isPySpace).head? := by
    rw [List.getLast?_eq_head?_reverse]
    unfold pyRstrip
    rw [List.reverse_reverse]
  have := List.head?_dropWhile_not isPySpace l.reverse
  rw [← hrev, h] at this
  exact this

theorem pyLstrip_eq_self {l : List Char}
    (h : ∀ c, l.head? = some c → isPySpace c = false) : pyLstrip l = l := by
  cases l with
  | nil => rfl
  | cons c t =>
    have : isPySpace c = false := h c rfl
    unfold pyLstrip
    rw [List.dropWhile_cons_of_neg (by simp [this])]

theorem pyRstrip_eq_self {l : List Char}
    (h : ∀ c, l.getLast? = some c → isPySpace c = false) : pyRstrip l = l := by
  unfold pyRstrip
  have hh : ∀ c, l.reverse.head? = some c → isPySpace c = false := by
    intro c hc
    exact h c (by rw [List.getLast?_eq_head?_reverse]; exact hc)
  have : l.reverse.dropWhile isPySpace = l.reverse := by
    cases hrev : l.reverse with
    | nil => simp
    | cons c t =>
      have : isPySpace c = false := hh c (by rw [hrev]; rfl)
      rw [List.dropWhile_cons_of_neg (by simp [this])]
  rw [this, List.reverse_reverse]

theorem pyLstrip_idem (l : List Char) : pyLstrip (pyLstrip l) = pyLstrip l :=
  pyLstrip_eq_self (fun _ hc => pyLstrip_head?_not_space hc)

theorem pyRstrip_idem (l : List Char) : pyRstrip (pyRstrip l) = pyRstrip l :=
  pyRstrip_eq_self (fun _ hc => pyRstrip_getLast?_not_space hc)

theorem pyLstrip_getLast? {l : List Char} (h : pyLstrip l ≠ []) :
    (pyLstrip l).getLast? = l.getLast? := by
  induction l with
  | nil => rfl
  | cons c t ih =>
    by_cases hc : isPySpace c = true
    · have hstep : pyLstrip (c :: t) = pyLstrip t := by
        unfold pyLstrip
        rw [List.dropWhile_cons_of_pos hc]
      rw [hstep] at h ⊢
      rw [ih h]
      have ht : t ≠ [] := by
        intro he
        exact h (by simp [pyLstrip, he])
      rw [getLast?_cons_of_ne c ht]
    · have hstep : pyLstrip (c :: t) = c :: t := by
        unfold pyLstrip
        rw [List.dropWhile_cons_of_neg hc]
      rw [hstep]

theorem pyStrip_getLast?_not_space {l : List Char} {c : Char}
    (h : (pyStrip l).getLast? = some c) : isPySpace c = false := by
  have hne : pyStrip l ≠ [] := by
    intro he
    rw [he] at h
    exact Option.noConfusion h
  have := pyLstrip_getLast? (l := pyRstrip l) hne
  unfold pyStrip at h
  rw [this] at h
  exact pyRstrip_getLast?_not_space h

theorem pyStrip_idem (l : List Char) : pyStrip (pyStrip l) = pyStrip l := by
  have h1 : pyRstrip (pyStrip l) = pyStrip l :=
    pyRstrip_eq_self (fun _ hc => pyStrip_getLast?_not_space hc)
  unfold pyStrip
  rw [show pyLstrip (pyRstrip l) = pyStrip l from rfl, h1]
  exact pyLstrip_idem _

theorem pyRstrip_eq_nil_of_lstrip_nil {l : List Char} (h : pyLstrip l = []) :
    pyRstrip l = [] :=
  pyRstrip_eq_nil_iff.mpr (pyLstrip_eq_nil_iff.mp h)

theorem length_pyLstrip_le (l : List Char) : (pyLstrip l).length ≤ l.length :=
  (List.dropWhile_sublist isPySpace).length_le

theorem drop_lineIndent (l : List Char) : l.drop (lineIndent l) = pyLstrip l := by
  induction l with
  | nil => rfl
  | cons c t ih =>
    by_cases hc : isPySpace c = true
    · have hstep : pyLstrip (c :: t) = pyLstrip t := by
        unfold pyLstrip
        rw [List.dropWhile_cons_of_pos hc]
      have hlen : (pyLstrip t).length ≤ t.length := length_pyLstrip_le t
      have hind : lineIndent (c :: t) = lineIndent t + 1 := by
        unfold lineIndent
        rw [hstep]
        simp only [List.length_cons]
        omega
      rw [hstep, hind, List.drop_succ_cons, ih]
    · have hstep : pyLstrip (c :: t) = c :: t := by
        unfold pyLstrip
        rw [List.dropWhile_cons_of_neg hc]
      have hind : lineIndent (c :: t) = 0 := by
        unfold lineIndent
        rw [hstep, Nat.sub_self]
      rw [hstep, hind, List.drop_zero]

theorem pyLstrip_eq_self_of_head_not_space {c : Char} {t : List Char}
    (h : isPySpace c = false) : pyLstrip (c :: t) = c :: t := by
  unfold pyLstrip
  rw [List.dropWhile_cons_of_neg (by simp [h])]

/-! ### Lemmas about `splitlines`, `expandtabs` and `joinLines` -/

theorem splitlines_crlf (cs : List Char) :
    splitlines ('\r' :: '\n' :: cs) = [] :: splitlines cs := rfl

theorem splitlines_cons_boundary {c : Char} {cs : List Char}
    (h0 : ∀ cs', c = '\r' → cs = '\n' :: cs' → False)
    (hb : isLineBoundary c = true) :
    splitlines (c :: cs) = [] :: splitlines cs := by
  rw [splitlines.eq_def]
  rcases cs with _ | ⟨d, t⟩
  · simp [hb]
  · by_cases hc : c = '\r'
    · subst hc
      have hd : d ≠ '\n' := fun he => h0 t rfl (by rw [he])
      simp [hd, hb]
    · simp [hc, hb]

theorem splitlines_cons_not_boundary {c : Char} (h : isLineBoundary c = false)
    (cs : List Char) :
    splitlines (c :: cs) = match splitlines cs with
      | [] => [[c]]
      | l :: ls => (c :: l) :: ls := by
  rw [splitlines.eq_def]
  have hc : c ≠ '\r' := by
    intro he
    subst he
    simp [isLineBoundary] at h
  rcases cs with _ | ⟨d, t⟩ <;> simp [hc, h]

theorem splitlines_ne_nil {cs : List Char} (h : cs ≠ []) : splitlines cs ≠ [] := by
  induction cs using splitlines.induct with
  | case1 => exact absurd rfl h
  | case2 cs _ => rw [splitlines_crlf]; exact List.cons_ne_nil _ _
  | case3 c cs h0 hb _ =>
    rw [splitlines_cons_boundary h0 hb]
    exact List.cons_ne_nil _ _
  | case4 c cs h0 hb hnil _ =>
    rw [splitlines_cons_not_boundary (Bool.eq_false_iff.mpr hb) cs, hnil]
    exact List.cons_ne_nil _ _
  | case5 c cs h0 hb l ls hcons _ =>
    rw [splitlines_cons_not_boundary (Bool.eq_false_iff.mpr hb) cs, hcons]
    exact List.cons_ne_nil _ _

theorem mem_splitlines {cs : List Char} :
    ∀ l ∈ splitlines cs, ∀ c ∈ l, c ∈ cs := by
  induction cs using splitlines.induct with
  | case1 => intro l hl; simp [splitlines] at hl
  | case2 cs ih =>
    intro l hl c hc
    rw [splitlines_crlf] at hl
    rcases List.mem_cons.mp hl with h | h
    · subst h; exact absurd hc (List.not_mem_nil c)
    · simp [ih l h c hc]
  | case3 c' cs h0 hb ih =>
    intro l hl c hc
    rw [splitlines_cons_boundary h0 hb] at hl
    rcases List.mem_cons.mp hl with h | h
    · subst h; exact absurd hc (List.not_mem_nil c)
    · simp [ih l h c hc]
  | case4 c' cs h0 hb hnil ih =>
    intro l hl c hc
    rw [splitlines_cons_not_boundary (Bool.eq_false_iff.mpr hb) cs, hnil] at hl
    rcases List.mem_cons.mp hl with h | h
    · subst h
      rcases List.mem_singleton.mp hc with h'
      simp [h']
    · exact absurd h (List.not_mem_nil l)
  | case5 c' cs h0 hb l' ls' hcons ih =>
    intro l hl c hc
    rw [splitlines_cons_not_boundary (Bool.eq_false_iff.mpr hb) cs, hcons] at hl
    rcases List.mem_cons.mp hl with h | h
    · subst h
      rcases List.mem_cons.mp hc with h' | h'
      · simp [h']
      · have hl' : l' ∈ splitlines cs := by
          rw [hcons]
          exact List.mem_cons_self _ _
        have := ih l' hl' c h'
        simp [this]
    · have hmem : l ∈ splitlines cs := by
        rw [hcons]
        exact List.mem_cons_of_mem _ h
      have := ih l hmem c hc
      simp [this]

theorem splitlines_no_boundary {cs : List Char} :
    ∀ l ∈ splitlines cs, ∀ c ∈ l, isLineBoundary c = false := by
  induction cs using splitlines.induct with
  | case1 => intro l hl; simp [splitlines] at hl
  | case2 cs ih =>
    intro l hl c hc
    rw [splitlines_crlf] at hl
    rcases List.mem_cons.mp hl with h | h
    · subst h; exact absurd hc (List.not_mem_nil c)
    · exact ih l h c hc
  | case3 c' cs h0 hb ih =>
    intro l hl c hc
    rw [splitlines_cons_boundary h0 hb] at hl
    rcases List.mem_cons.mp hl with h | h
    · subst h; exact absurd hc (List.not_mem_nil c)
    · exact ih l h c hc
  | case4 c' cs h0 hb hnil ih =>
    intro l hl c hc
    rw [splitlines_cons_not_boundary (Bool.eq_false_iff.mpr hb) cs, hnil] at hl
    rcases List.mem_cons.mp hl with h | h
    · subst h
      rw [List.mem_singleton.mp hc]
      exact Bool.eq_false_iff.mpr hb
    · exact absurd h (List.not_mem_nil l)
  | case5 c' cs h0 hb l' ls' hcons ih =>
    intro l hl c hc
    rw [splitlines_cons_not_boundary (Bool.eq_false_iff.mpr hb) cs, hcons] at hl
    rcases List.mem_cons.mp hl with h | h
    · subst h
      rcases List.mem_cons.mp hc with h' | h'
      · rw [h']
        exact Bool.eq_false_iff.mpr hb
      · refine ih l' ?_ c h'
        rw [hcons]
        exact List.mem_cons_self _ _
    · refine ih l ?_ c hc
      rw [hcons]
      exact List.mem_cons_of_mem _ h

theorem splitlines_of_no_boundary {cs : List Char} (hne : cs ≠ [])
    (h : ∀ c ∈ cs, isLineBoundary c = false) : splitlines cs = [cs] := by
  induction cs with
  | nil => exact absurd rfl hne
  | cons c t ih =>
    have hc : isLineBoundary c = false := h c (List.mem_cons_self _ _)
    rw [splitlines_cons_not_boundary hc t]
    rcases Decidable.em (t = []) with ht | ht
    · subst ht
      simp [splitlines]
    · rw [ih ht (fun d hd => h d (List.mem_cons_of_mem _ hd))]

theorem splitlines_append_newline {l : List Char}
    (h : ∀ c ∈ l, isLineBoundary c = false) (r : List Char) :
    splitlines (l ++ '\n' :: r) = l :: splitlines r := by
  induction l with
  | nil =>
    have : splitlines ('\n' :: r) = [] :: splitlines r := rfl
    simpa using this
  | cons c t ih =>
    have hc : isLineBoundary c = false := h c (List.mem_cons_self _ _)
    have ih' := ih (fun d hd => h d (List.mem_cons_of_mem _ hd))
    rw [List.cons_append, splitlines_cons_not_boundary hc, ih']

theorem joinLines_cons_cons (a b : List Char) (t : List (List Char)) :
    joinLines (a :: b :: t) = a ++ '\n' :: joinLines (b :: t) := rfl

theorem splitlines_joinLines {ls : List (List Char)} (hne : ls ≠ [])
    (hbd : ∀ l ∈ ls, ∀ c ∈ l, isLineBoundary c = false)
    (hlast : ∀ a, ls.getLast? = some a → a ≠ []) :
    splitlines (joinLines ls) = ls := by
  induction ls with
  | nil => exact absurd rfl hne
  | cons a t ih =>
    rcases Decidable.em (t = []) with ht | ht
    · subst ht
      have ha : a ≠ [] := hlast a rfl
      show splitlines (joinLines [a]) = [a]
      have : joinLines [a] = a := rfl
      rw [this]
      exact splitlines_of_no_boundary ha (hbd a (List.mem_cons_self _ _))
    · rcases t with _ | ⟨b, t'⟩
      · exact absurd rfl ht
      · rw [joinLines_cons_cons,
          splitlines_append_newline (hbd a (List.mem_cons_self _ _))]
        rw [ih ht (fun l hl c hc => hbd l (List.mem_cons_of_mem _ hl) c hc)
          (fun x hx => hlast x (by rw [getLast?_cons_of_ne a ht]; exact hx))]

theorem mem_expandtabsAux {cs : List Char} :
    ∀ col, ∀ c ∈ expandtabsAux cs col, c ∈ cs ∨ c = ' ' := by
  induction cs with
  | nil => intro col c hc; simp [expandtabsAux] at hc
  | cons d t ih =>
    intro col c hc
    rw [expandtabsAux] at hc
    by_cases hd : d = '\t'
    · rw [if_pos hd] at hc
      rcases List.mem_append.mp hc with h | h
      · exact Or.inr (List.eq_of_mem_replicate h)
      · rcases ih _ c h with h' | h'
        · exact Or.inl (List.mem_cons_of_mem _ h')
        · exact Or.inr h'
    · rw [if_neg hd] at hc
      by_cases hnl : (d.toNat = 10 || d.toNat = 13) = true
      · rw [if_pos hnl] at hc
        rcases List.mem_cons.mp hc with h | h
        · exact Or.inl (by rw [h]; exact List.mem_cons_self _ _)
        · rcases ih _ c h with h' | h'
          · exact Or.inl (List.mem_cons_of_mem _ h')
          · exact Or.inr h'
      · rw [if_neg hnl] at hc
        rcases List.mem_cons.mp hc with h | h
        · exact Or.inl (by rw [h]; exact List.mem_cons_self _ _)
        · rcases ih _ c h with h' | h'
          · exact Or.inl (List.mem_cons_of_mem _ h')
          · exact Or.inr h'

theorem expandtabsAux_no_tab {cs : List Char} :
    ∀ col, ∀ c ∈ expandtabsAux cs col, c ≠ '\t' := by
  induction cs with
  | nil => intro col c hc; simp [expandtabsAux] at hc
  | cons d t ih =>
    intro col c hc
    rw [expandtabsAux] at hc
    by_cases hd : d = '\t'
    · rw [if_pos hd] at hc
      rcases List.mem_append.mp hc with h | h
      · intro he
        rw [he] at h
        have := List.eq_of_mem_replicate h
        exact absurd this (by decide)
      · exact ih _ c h
    · rw [if_neg hd] at hc
      by_cases hnl : (d.toNat = 10 || d.toNat = 13) = true
      · rw [if_pos hnl] at hc
        rcases List.mem_cons.mp hc with h | h
        · rw [h]; exact hd
        · exact ih _ c h
      · rw [if_neg hnl] at hc
        rcases List.mem_cons.mp hc with h | h
        · rw [h]; exact hd
        · exact ih _ c h

theorem expandtabsAux_eq_self {cs : List Char} (h : ∀ c ∈ cs, c ≠ '\t') :
    ∀ col, expandtabsAux cs col = cs := by
  induction cs with
  | nil => intro col; rfl
  | cons d t ih =>
    intro col
    have hd : d ≠ '\t' := h d (List.mem_cons_self _ _)
    have ih' := ih (fun c hc => h c (List.mem_cons_of_mem _ hc))
    rw [expandtabsAux, if_neg hd]
    by_cases hnl : (d.toNat = 10 || d.toNat = 13) = true
    · rw [if_pos hnl, ih']
    · rw [if_neg hnl, ih']

/-! ### Lemmas about the blank-line popping loops -/

theorem dropLeadingBlanks_append {xs ys : List (List Char)} :
    dropLeadingBlanks (xs ++ ys) =
      if dropLeadingBlanks xs = [] then dropLeadingBlanks ys
      else dropLeadingBlanks xs ++ ys := by
  induction xs with
  | nil => simp [dropLeadingBlanks]
  | cons a t ih =>
    by_cases ha : a.isEmpty
    · rw [List.cons_append, dropLeadingBlanks, if_pos ha, ih,
        dropLeadingBlanks, if_pos ha]
    · rw [List.cons_append, dropLeadingBlanks, if_neg ha,
        dropLeadingBlanks, if_neg ha]
      rw [if_neg (List.cons_ne_nil a t)]
      rfl

theorem dropLeadingBlanks_cons_ne {a : List Char} (ha : a ≠ [])
    (ls : List (List Char)) : dropLeadingBlanks (a :: ls) = a :: ls := by
  rw [dropLeadingBlanks, if_neg (by simpa [List.isEmpty_iff] using ha)]

theorem dropLeadingBlanks_eq_self {ls : List (List Char)}
    (h : ∀ a, ls.head? = some a → a ≠ []) : dropLeadingBlanks ls = ls := by
  cases ls with
  | nil => rfl
  | cons a t => exact dropLeadingBlanks_cons_ne (h a rfl) t

theorem dropLeadingBlanks_head? {ls : List (List Char)} :
    ∀ a, (dropLeadingBlanks ls).head? = some a → a ≠ [] := by
  induction ls with
  | nil => intro a ha; simp [dropLeadingBlanks] at ha
  | cons b t ih =>
    intro a ha
    by_cases hb : b.isEmpty
    · rw [dropLeadingBlanks, if_pos hb] at ha
      exact ih a ha
    · rw [dropLeadingBlanks, if_neg hb] at ha
      have hba : b = a := by simpa using ha
      subst hba
      simp only [List.isEmpty_iff] at hb
      exact hb

theorem mem_dropLeadingBlanks {ls : List (List Char)} {x : List Char}
    (h : x ∈ dropLeadingBlanks ls) : x ∈ ls := by
  induction ls with
  | nil => exact absurd h (List.not_mem_nil x)
  | cons b t ih =>
    by_cases hb : b.isEmpty
    · rw [dropLeadingBlanks, if_pos hb] at h
      exact List.mem_cons_of_mem _ (ih h)
    · rw [dropLeadingBlanks, if_neg hb] at h
      exact h

theorem mem_dropLeadingBlanks_of_ne {ls : List (List Char)} {x : List Char}
    (h : x ∈ ls) (hx : x ≠ []) : x ∈ dropLeadingBlanks ls := by
  induction ls with
  | nil => exact absurd h (List.not_mem_nil x)
  | cons b t ih =>
    by_cases hb : b.isEmpty
    · rw [dropLeadingBlanks, if_pos hb]
      rcases List.mem_cons.mp h with h' | h'
      · exact absurd (h' ▸ hx) (by simpa [List.isEmpty_iff] using hb)
      · exact ih h'
    · rw [dropLeadingBlanks, if_neg hb]
      exact h

theorem dropLeadingBlanks_getLast? {ls : List (List Char)}
    (h : dropLeadingBlanks ls ≠ []) :
    (dropLeadingBlanks ls).getLast? = ls.getLast? := by
  induction ls with
  | nil => rfl
  | cons b t ih =>
    by_cases hb : b.isEmpty
    · rw [dropLeadingBlanks, if_pos hb] at h ⊢
      rw [ih h]
      have ht : t ≠ [] := by
        intro he
        rw [he] at h
        exact h rfl
      rw [getLast?_cons_of_ne b ht]
    · rw [dropLeadingBlanks, if_neg hb]

theorem dropTrailingBlanks_cons {a : List Char} (ha : a ≠ [])
    (ls : List (List Char)) :
    dropTrailingBlanks (a :: ls) = a :: dropTrailingBlanks ls := by
  unfold dropTrailingBlanks
  rw [List.reverse_cons, dropLeadingBlanks_append]
  by_cases h : dropLeadingBlanks ls.reverse = []
  · rw [if_pos h, h, List.reverse_nil, dropLeadingBlanks_cons_ne ha]
    rfl
  · rw [if_neg h, List.reverse_append]
    simp

theorem dropTrailingBlanks_getLast? {ls : List (List Char)} :
    ∀ a, (dropTrailingBlanks ls).getLast? = some a → a ≠ [] := by
  intro a ha
  unfold dropTrailingBlanks at ha
  rw [List.getLast?_eq_head?_reverse, List.reverse_reverse] at ha
  exact dropLeadingBlanks_head? a ha

theorem dropTrailingBlanks_eq_self {ls : List (List Char)}
    (h : ∀ a, ls.getLast? = some a → a ≠ []) : dropTrailingBlanks ls = ls := by
  unfold dropTrailingBlanks
  rw [dropLeadingBlanks_eq_self, List.reverse_reverse]
  intro a ha
  exact h a (by rw [List.getLast?_eq_head?_reverse]; exact ha)

theorem mem_dropTrailingBlanks_of_ne {ls : List (List Char)} {x : List Char}
    (h : x ∈ ls) (hx : x ≠ []) : x ∈ dropTrailingBlanks ls := by
  unfold dropTrailingBlanks
  rw [List.mem_reverse]
  exact mem_dropLeadingBlanks_of_ne (List.mem_reverse.mpr h) hx

theorem mem_dropTrailingBlanks {ls : List (List Char)} {x : List Char}
    (h : x ∈ dropTrailingBlanks ls) : x ∈ ls := by
  unfold dropTrailingBlanks at h
  rw [List.mem_reverse] at h
  exact List.mem_reverse.mp (mem_dropLeadingBlanks h)

theorem dropTrailingBlanks_head? {ls : List (List Char)}
    (h : dropTrailingBlanks ls ≠ []) :
    (dropTrailingBlanks ls).head? = ls.head? := by
  unfold dropTrailingBlanks at h ⊢
  rw [List.head?_reverse, dropLeadingBlanks_getLast? (by simpa using h),
    List.getLast?_reverse]

theorem dropLeadingBlanks_eq_nil {ls : List (List Char)}
    (h : ∀ l ∈ ls, l = []) : dropLeadingBlanks ls = [] := by
  induction ls with
  | nil => rfl
  | cons a t ih =>
    have ha : a = [] := h a (List.mem_cons_self _ _)
    rw [dropLeadingBlanks, if_pos (by simp [ha])]
    exact ih (fun l hl => h l (List.mem_cons_of_mem _ hl))

theorem dropTrailingBlanks_append_blanks {xs ys : List (List Char)}
    (h : ∀ l ∈ ys, l = []) :
    dropTrailingBlanks (xs ++ ys) = dropTrailingBlanks xs := by
  unfold dropTrailingBlanks
  rw [List.reverse_append, dropLeadingBlanks_append]
  have hy : dropLeadingBlanks ys.reverse = [] :=
    dropLeadingBlanks_eq_nil (fun l hl => h l (List.mem_reverse.mp hl))
  rw [if_pos hy]

/-! ### Lemmas about `minIndent` -/

theorem minIndent_eq_none_iff {ls : List (List Char)} :
    minIndent ls = none ↔ ∀ l ∈ ls, pyLstrip l = [] := by
  induction ls with
  | nil => simp [minIndent]
  | cons a t ih =>
    by_cases ha : (pyLstrip a).isEmpty
    · rw [minIndent, if_pos ha]
      constructor
      · intro h l hl
        rcases List.mem_cons.mp hl with h' | h'
        · rw [h']
          exact List.isEmpty_iff.mp ha
        · exact ih.mp h l h'
      · intro h
        exact ih.mpr (fun l hl => h l (List.mem_cons_of_mem _ hl))
    · rw [minIndent, if_neg ha]
      constructor
      · intro h
        rcases hmi : minIndent t with _ | i <;> rw [hmi] at h <;>
          exact Option.noConfusion h
      · intro h
        exact absurd (h a (List.mem_cons_self _ _))
          (by simpa [List.isEmpty_iff] using ha)

theorem minIndent_le {ls : List (List Char)} {l : List Char}
    (hl : l ∈ ls) (hnb : pyLstrip l ≠ []) :
    ∃ j, minIndent ls = some j ∧ j ≤ lineIndent l := by
  induction ls with
  | nil => exact absurd hl (List.not_mem_nil l)
  | cons a t ih =>
    by_cases ha : (pyLstrip a).isEmpty
    · rw [minIndent, if_pos ha]
      rcases List.mem_cons.mp hl with h' | h'
      · exact absurd (List.isEmpty_iff.mp ha) (h' ▸ hnb)
      · exact ih h'
    · rw [minIndent, if_neg ha]
      rcases List.mem_cons.mp hl with h' | h'
      · subst h'
        rcases hmi : minIndent t with _ | i
        · exact ⟨lineIndent l, rfl, Nat.le_refl _⟩
        · exact ⟨min (lineIndent l) i, rfl, Nat.min_le_left _ _⟩
      · rcases ih h' with ⟨j, hj, hle⟩
        rw [hj]
        exact ⟨min (lineIndent a) j, rfl, Nat.le_trans (Nat.min_le_right _ _) hle⟩

theorem minIndent_exists {ls : List (List Char)} {i : Nat}
    (h : minIndent ls = some i) :
    ∃ l ∈ ls, pyLstrip l ≠ [] ∧ lineIndent l = i := by
  induction ls generalizing i with
  | nil => exact Option.noConfusion h
  | cons a t ih =>
    by_cases ha : (pyLstrip a).isEmpty
    · rw [minIndent, if_pos ha] at h
      rcases ih h with ⟨l, hl, hnb, hi⟩
      exact ⟨l, List.mem_cons_of_mem _ hl, hnb, hi⟩
    · rw [minIndent, if_neg ha] at h
      rcases hmi : minIndent t with _ | j
      · rw [hmi] at h
        refine ⟨a, List.mem_cons_self _ _, ?_, ?_⟩
        · simpa [List.isEmpty_iff] using ha
        · exact (Option.some_inj.mp h)
      · rw [hmi] at h
        have hij : min (lineIndent a) j = i := Option.some_inj.mp h
        rcases Nat.le_total (lineIndent a) j with hle | hle
        · refine ⟨a, List.mem_cons_self _ _, ?_, ?_⟩
          · simpa [List.isEmpty_iff] using ha
          · rw [← hij, Nat.min_eq_left hle]
        · rcases ih hmi with ⟨l, hl, hnb, hi⟩
          refine ⟨l, List.mem_cons_of_mem _ hl, hnb, ?_⟩
          rw [hi, ← hij, Nat.min_eq_right hle]

/-! ### Structure of the `trimLines` output -/

theorem pyRstrip_pyStrip (l : List Char) : pyRstrip (pyStrip l) = pyStrip l :=
  pyRstrip_eq_self (fun _ hc => pyStrip_getLast?_not_space hc)

theorem pyLstrip_pyStrip (l : List Char) : pyLstrip (pyStrip l) = pyStrip l :=
  pyLstrip_idem _

theorem pyLstrip_pyRstrip_ne_nil {w : List Char} (h : pyRstrip w ≠ []) :
    pyLstrip (pyRstrip w) ≠ [] := by
  intro hnil
  rcases hl : (pyRstrip w).getLast? with _ | a
  · rw [List.getLast?_eq_none_iff] at hl
    exact h hl
  · have hmem : a ∈ pyRstrip w := List.mem_of_mem_getLast? hl
    have hsp : isPySpace a = true := pyLstrip_eq_nil_iff.mp hnil a hmem
    rw [pyRstrip_getLast?_not_space hl] at hsp
    exact Bool.noConfusion hsp

theorem trimLines_eq {s : List Char} {f : List Char} {rest : List (List Char)}
    (h : splitlines (expandtabs s) = f :: rest) :
    trimLines s = dropLeadingBlanks (dropTrailingBlanks (pyStrip f ::
      (match minIndent rest with
       | none => []
       | some i => rest.map (fun l => pyRstrip (l.drop i))))) := by
  unfold trimLines
  rw [h]

theorem trimLines_good {s : List Char} {l : List Char} (h : l ∈ trimLines s) :
    (∀ c ∈ l, isLineBoundary c = false) ∧ pyRstrip l = l ∧
      (l = [] ∨ pyLstrip l ≠ []) ∧ (∀ c ∈ l, c ≠ '\t') := by
  rcases hsp : splitlines (expandtabs s) with _ | ⟨f, rest⟩
  · rw [trimLines, hsp] at h
    exact absurd h (List.not_mem_nil l)
  · rw [trimLines_eq hsp] at h
    have hmem := mem_dropTrailingBlanks (mem_dropLeadingBlanks h)
    have hf_mem : f ∈ splitlines (expandtabs s) := by
      rw [hsp]
      exact List.mem_cons_self _ _
    rcases List.mem_cons.mp hmem with hl | hl
    · subst hl
      refine ⟨?_, pyRstrip_pyStrip f, ?_, ?_⟩
      · intro c hc
        exact splitlines_no_boundary f hf_mem c (mem_pyStrip hc)
      · rcases Decidable.em (pyStrip f = []) with he | he
        · exact Or.inl he
        · refine Or.inr ?_
          rw [show pyStrip f = pyLstrip (pyRstrip f) from rfl] at he ⊢
          rw [pyLstrip_idem]
          exact he
      · intro c hc
        exact expandtabsAux_no_tab 0 c (mem_splitlines f hf_mem c (mem_pyStrip hc))
    · rcases hmi : minIndent rest with _ | i <;> rw [hmi] at hl
      · exact absurd hl (List.not_mem_nil l)
      · rcases List.mem_map.mp hl with ⟨r, hr, hrl⟩
        have hr_mem : r ∈ splitlines (expandtabs s) := by
          rw [hsp]
          exact List.mem_cons_of_mem _ hr
        subst hrl
        refine ⟨?_, pyRstrip_idem _, ?_, ?_⟩
        · intro c hc
          exact splitlines_no_boundary r hr_mem c
            (List.mem_of_mem_drop (mem_pyRstrip hc))
        · rcases Decidable.em (pyRstrip (r.drop i) = []) with he | he
          · exact Or.inl he
          · exact Or.inr (pyLstrip_pyRstrip_ne_nil he)
        · intro c hc
          exact expandtabsAux_no_tab 0 c (mem_splitlines r hr_mem c
            (List.mem_of_mem_drop (mem_pyRstrip hc)))

theorem trimLines_head?_ne {s : List Char} :
    ∀ a, (trimLines s).head? = some a → a ≠ [] := by
  intro a ha
  rcases hsp : splitlines (expandtabs s) with _ | ⟨f, rest⟩
  · rw [trimLines, hsp] at ha
    exact Option.noConfusion ha
  · rw [trimLines_eq hsp] at ha
    exact dropLeadingBlanks_head? a ha

theorem trimLines_getLast?_ne {s : List Char} :
    ∀ a, (trimLines s).getLast? = some a → a ≠ [] := by
  intro a ha
  rcases hsp : splitlines (expandtabs s) with _ | ⟨f, rest⟩
  · rw [trimLines, hsp] at ha
    exact Option.noConfusion ha
  · rw [trimLines_eq hsp] at ha
    have hne : dropLeadingBlanks (dropTrailingBlanks (pyStrip f ::
        (match minIndent rest with
         | none => []
         | some i => rest.map (fun l => pyRstrip (l.drop i))))) ≠ [] := by
      intro he
      rw [he] at ha
      exact Option.noConfusion ha
    rw [dropLeadingBlanks_getLast? hne] at ha
    exact dropTrailingBlanks_getLast? a ha

theorem splitlines_joinLines_trimLines (s : List Char) :
    splitlines (joinLines (trimLines s)) = trimLines s := by
  rcases Decidable.em (trimLines s = []) with he | he
  · rw [he]
    rfl
  · exact splitlines_joinLines he
      (fun l hl c hc => (trimLines_good hl).1 c hc)
      trimLines_getLast?_ne

theorem mem_joinLines {ls : List (List Char)} {c : Char}
    (h : c ∈ joinLines ls) : (∃ l ∈ ls, c ∈ l) ∨ c = '\n' := by
  induction ls with
  | nil => exact absurd h (List.not_mem_nil c)
  | cons a t ih =>
    rcases t with _ | ⟨b, t'⟩
    · exact Or.inl ⟨a, List.mem_singleton_self a, h⟩
    · rw [joinLines_cons_cons] at h
      rcases List.mem_append.mp h with h' | h'
      · exact Or.inl ⟨a, List.mem_cons_self _ _, h'⟩
      · rcases List.mem_cons.mp h' with h'' | h''
        · exact Or.inr h''
        · rcases ih h'' with ⟨l, hl, hc⟩ | hnl
          · exact Or.inl ⟨l, List.mem_cons_of_mem _ hl, hc⟩
          · exact Or.inr hnl

theorem expandtabs_joinLines_trimLines (s : List Char) :
    expandtabs (joinLines (trimLines s)) = joinLines (trimLines s) := by
  apply expandtabsAux_eq_self
  intro c hc
  rcases mem_joinLines hc with ⟨l, hl, hcl⟩ | hnl
  · exact (trimLines_good hl).2.2.2 c hcl
  · rw [hnl]
    decide

/-! ### Idempotence machinery -/

theorem list_map_eq_self {α : Type} {f : α → α} {l : List α}
    (h : ∀ x ∈ l, f x = x) : l.map f = l := by
  induction l with
  | nil => rfl
  | cons a t ih =>
    rw [List.map_cons, h a (List.mem_cons_self _ _),
      ih (fun x hx => h x (List.mem_cons_of_mem _ hx))]

theorem pyRstrip_cons_not_space {c : Char} (hc : isPySpace c = false)
    (t : List Char) : ∃ t', pyRstrip (c :: t) = c :: t' := by
  unfold pyRstrip
  rw [List.reverse_cons, List.dropWhile_append]
  by_cases h : (List.dropWhile isPySpace t.reverse).isEmpty
  · rw [if_pos h]
    refine ⟨[], ?_⟩
    rw [List.dropWhile_cons_of_neg (by simp [hc])]
    rfl
  · rw [if_neg h, List.reverse_append]
    exact ⟨(List.dropWhile isPySpace t.reverse).reverse, rfl⟩

theorem joinLines_cons_ne_nil {a : List Char} (ha : a ≠ [])
    (t : List (List Char)) : joinLines (a :: t) ≠ [] := by
  rcases t with _ | ⟨b, t'⟩
  · exact ha
  · rw [joinLines_cons_cons]
    intro he
    exact ha (List.append_eq_nil.mp he).1

theorem trimLines_cons_form {s : List Char} {f : List Char}
    {rest : List (List Char)} (hsp : splitlines (expandtabs s) = f :: rest)
    (hf : pyStrip f ≠ []) :
    trimLines s = pyStrip f :: dropTrailingBlanks
      (match minIndent rest with
       | none => []
       | some i => rest.map (fun l => pyRstrip (l.drop i))) := by
  rw [trimLines_eq hsp, dropTrailingBlanks_cons hf,
    dropLeadingBlanks_cons_ne hf]

/-- A processed non-first line whose source line realises the minimum
indentation starts with a non-whitespace character. -/
theorem processed_achiever {r : List Char} {i : Nat}
    (hnb : pyLstrip r ≠ []) (hi : lineIndent r = i) :
    pyRstrip (r.drop i) ≠ [] ∧ pyLstrip (pyRstrip (r.drop i)) = pyRstrip (r.drop i) := by
  have hdrop : r.drop i = pyLstrip r := by
    rw [← hi]
    exact drop_lineIndent r
  rcases hl : pyLstrip r with _ | ⟨c, t⟩
  · exact absurd hl hnb
  · have hc : isPySpace c = false := pyLstrip_head?_not_space (by rw [hl]; rfl)
    rcases pyRstrip_cons_not_space hc t with ⟨t', ht'⟩
    rw [hdrop, hl, ht']
    exact ⟨List.cons_ne_nil _ _, pyLstrip_eq_self_of_head_not_space hc⟩

theorem trimLines_cons_form_none {s : List Char} {f : List Char}
    {rest : List (List Char)} (hsp : splitlines (expandtabs s) = f :: rest)
    (hf : pyStrip f ≠ []) (hmi : minIndent rest = none) :
    trimLines s = [pyStrip f] := by
  rw [trimLines_cons_form hsp hf, hmi]
  rfl

theorem trimLines_cons_form_some {s : List Char} {f : List Char}
    {rest : List (List Char)} {i : Nat}
    (hsp : splitlines (expandtabs s) = f :: rest)
    (hf : pyStrip f ≠ []) (hmi : minIndent rest = some i) :
    trimLines s = pyStrip f ::
      dropTrailingBlanks (rest.map (fun l => pyRstrip (l.drop i))) := by
  rw [trimLines_cons_form hsp hf, hmi]

theorem trimLines_fixed {s : List Char} (hfl : firstLineBlank s = false) :
    joinLines (trimLines s) ≠ [] ∧
      trimLines (joinLines (trimLines s)) = trimLines s := by
  rcases hsp : splitlines (expandtabs s) with _ | ⟨f, rest⟩
  · rw [firstLineBlank, hsp] at hfl
    simp at hfl
  · have hf : pyStrip f ≠ [] := by
      rw [firstLineBlank, hsp] at hfl
      simp only [List.head?_cons, Option.map_some, Option.getD_some,
        List.isEmpty_iff] at hfl
      simpa [List.isEmpty_iff] using hfl
    have hE := expandtabs_joinLines_trimLines s
    have hS := splitlines_joinLines_trimLines s
    rcases hmi : minIndent rest with _ | i
    · have htl : trimLines s = [pyStrip f] := trimLines_cons_form_none hsp hf hmi
      have hs2 : splitlines (expandtabs (joinLines (trimLines s))) =
          pyStrip f :: [] := by
        rw [hE, hS, htl]
      refine ⟨by rw [htl]; exact joinLines_cons_ne_nil hf [], ?_⟩
      rw [trimLines_cons_form_none hs2 (by rw [pyStrip_idem]; exact hf) rfl,
        pyStrip_idem, htl]
    · have htl : trimLines s = pyStrip f ::
          dropTrailingBlanks (rest.map (fun l => pyRstrip (l.drop i))) :=
        trimLines_cons_form_some hsp hf hmi
      rcases minIndent_exists hmi with ⟨r, hr, hnb, hi⟩
      rcases processed_achiever hnb hi with ⟨hgr_ne, hgr_lstrip⟩
      have hgr_mem : pyRstrip (r.drop i) ∈
          rest.map (fun l => pyRstrip (l.drop i)) :=
        List.mem_map_of_mem (fun l => pyRstrip (l.drop i)) hr
      have hgr_memT : pyRstrip (r.drop i) ∈
          dropTrailingBlanks (rest.map (fun l => pyRstrip (l.drop i))) :=
        mem_dropTrailingBlanks_of_ne hgr_mem hgr_ne
      have hgr_ind : lineIndent (pyRstrip (r.drop i)) = 0 := by
        rw [lineIndent, hgr_lstrip, Nat.sub_self]
      have hmi2 : minIndent (dropTrailingBlanks
          (rest.map (fun l => pyRstrip (l.drop i)))) = some 0 := by
        rcases minIndent_le hgr_memT (by rw [hgr_lstrip]; exact hgr_ne)
          with ⟨j, hj, hle⟩
        rw [hgr_ind] at hle
        rw [hj, Nat.le_zero.mp hle]
      have hs2 : splitlines (expandtabs (joinLines (trimLines s))) =
          pyStrip f :: dropTrailingBlanks
            (rest.map (fun l => pyRstrip (l.drop i))) := by
        rw [hE, hS, htl]
      refine ⟨by rw [htl]; exact joinLines_cons_ne_nil hf _, ?_⟩
      rw [trimLines_cons_form_some hs2 (by rw [pyStrip_idem]; exact hf) hmi2,
        pyStrip_idem]
      have hmap : (dropTrailingBlanks
          (rest.map (fun l => pyRstrip (l.drop i)))).map
            (fun l => pyRstrip (l.drop 0)) =
          dropTrailingBlanks (rest.map (fun l => pyRstrip (l.drop i))) := by
        apply list_map_eq_self
        intro x hx
        rcases List.mem_map.mp (mem_dropTrailingBlanks hx) with ⟨r', _, hr'⟩
        rw [List.drop_zero, ← hr', pyRstrip_idem]
      rw [hmap, dropTrailingBlanks_eq_self dropTrailingBlanks_getLast?, htl]

/-! ### The `trimLinesSpec` refinement -/

theorem trimLinesSpec_eq {s : List Char} {f : List Char}
    {rest : List (List Char)} (h : splitlines (expandtabs s) = f :: rest) :
    trimLinesSpec s = pyStrip f ::
      rest.map (fun l => pyRstrip (l.drop ((minIndent rest).getD 0))) := by
  unfold trimLinesSpec
  rw [h]

theorem trimLines_eq_specLines (s : List Char) :
    trimLines s = dropLeadingBlanks (dropTrailingBlanks (trimLinesSpec s)) := by
  rcases hsp : splitlines (expandtabs s) with _ | ⟨f, rest⟩
  · rw [trimLines, trimLinesSpec, hsp]
    rfl
  · rcases hmi : minIndent rest with _ | i
    · have hblank : ∀ l ∈ rest, pyLstrip l = [] := minIndent_eq_none_iff.mp hmi
      rw [trimLines_eq hsp, hmi, trimLinesSpec_eq hsp, hmi]
      have hmapped : ∀ l ∈ rest.map (fun l => pyRstrip (l.drop (Option.getD none 0))),
          l = [] := by
        intro l hl
        rcases List.mem_map.mp hl with ⟨r, hr, hrl⟩
        rw [← hrl]
        simp only [Option.getD_none, List.drop_zero]
        exact pyRstrip_eq_nil_of_lstrip_nil (hblank r hr)
      rw [show pyStrip f :: rest.map (fun l => pyRstrip (l.drop (Option.getD none 0))) =
        [pyStrip f] ++ rest.map (fun l => pyRstrip (l.drop (Option.getD none 0))) from rfl]
      rw [dropTrailingBlanks_append_blanks hmapped]
    · rw [trimLines_eq hsp, hmi, trimLinesSpec_eq hsp, hmi]
      rfl

/-! ### Claim theorems for the docstring trimmer -/

/-- C9: `trim("")` is `""` and `trim(None)` is `""`. -/
theorem trim_empty_and_absent : trim (some ("")) = "" ∧ trim none = "" :=
  ⟨rfl, rfl⟩

/-- C8: for every input (present or absent), the output of `trim` never
begins and never ends with a blank line: the first and the last line of the
output, when they exist, contain a non-whitespace character. -/
theorem trim_no_blank_edge_lines (x : Option String) :
    ((splitlines (trim x).data).head?.all (fun l => !(pyLstrip l).isEmpty)) = true ∧
    ((splitlines (trim x).data).getLast?.all (fun l => !(pyLstrip l).isEmpty)) = true := by
  rcases x with _ | s
  · exact ⟨rfl, rfl⟩
  · rcases Decidable.em (s.data.isEmpty = true) with he | he
    · simp only [trim, if_pos he]
      exact ⟨rfl, rfl⟩
    · simp only [trim, if_neg he]
      rw [splitlines_joinLines_trimLines]
      constructor
      · rcases hh : (trimLines s.data).head? with _ | a
        · rfl
        · have hne : a ≠ [] := trimLines_head?_ne a hh
          have hnb : a = [] ∨ pyLstrip a ≠ [] :=
            (trimLines_good (List.mem_of_mem_head? hh)).2.2.1
          rcases hnb with h' | h'
          · exact absurd h' hne
          · simp [Option.all_some, List.isEmpty_iff, h']
      · rcases hh : (trimLines s.data).getLast? with _ | a
        · rfl
        · have hne : a ≠ [] := trimLines_getLast?_ne a hh
          have hnb : a = [] ∨ pyLstrip a ≠ [] :=
            (trimLines_good (List.mem_of_mem_getLast? hh)).2.2.1
          rcases hnb with h' | h'
          · exact absurd h' hne
          · simp [Option.all_some, List.isEmpty_iff, h']

/-- C3: for every non-empty input, `trim` is the spec pipeline — expand tabs,
strip the first line independently, remove from every other line the minimum
indentation of the non-blank non-first lines and the trailing whitespace
(`trimLinesSpec`) — followed by removing leading/trailing blank lines and
rejoining with newlines. -/
theorem trim_matches_spec_pipeline (x : String) (h : x ≠ "") :
    trim (some x) = String.mk (joinLines
      (dropLeadingBlanks (dropTrailingBlanks (trimLinesSpec x.data)))) := by
  have hx : ¬ x.data.isEmpty = true := by
    intro he
    rw [List.isEmpty_iff] at he
    exact h (String.ext he)
  simp only [trim, if_neg hx]
  rw [trimLines_eq_specLines]

/-- Witness for C3 at the concrete docstring `"a\n   b"`. -/
theorem trim_matches_spec_pipeline_witness :
    trim (some ("a\n   b")) = String.mk (joinLines
      (dropLeadingBlanks (dropTrailingBlanks (trimLinesSpec (("a\n   b").data))))) :=
  trim_matches_spec_pipeline ("a\n   b") (by decide)

/-- C2 counterexample: `trim` is NOT idempotent.  On `"\n  a\n    b"` the
first pass pops the blank first line, promoting the 2-space-indented line
`  a` (now dedented to `a`) to first position while `    b` keeps 2 spaces;
the second pass then strips those remaining 2 spaces. -/
theorem trim_not_idempotent :
    trim (some (trim (some ("\n  a\n    b")))) ≠ trim (some ("\n  a\n    b")) := by
  decide

/-- C2 amended: `trim(trim(x)) = trim(x)` for every `x` that is empty or
whose first line is non-blank; idempotence can only fail when the first line
is blank (as in the counterexample). -/
theorem trim_idempotent_of_first_line_not_blank (x : String)
    (h : x = "" ∨ firstLineBlank x.data = false) :
    trim (some (trim (some x))) = trim (some x) := by
  rcases h with he | h
  · subst he
    rfl
  · have hx : ¬ x.data.isEmpty = true := by
      intro he
      rw [List.isEmpty_iff] at he
      rw [firstLineBlank, he] at h
      simp [expandtabs, expandtabsAux, splitlines] at h
    rcases trimLines_fixed h with ⟨hne, hfix⟩
    simp only [trim, if_neg hx]
    rw [if_neg (by simpa [List.isEmpty_iff] using hne), hfix]

/-- Witness for the amended C2 at the concrete docstring `"a\n   b"`. -/
theorem trim_idempotent_witness :
    trim (some (trim (some ("First\n    indented")))) =
      trim (some ("First\n    indented")) :=
  trim_idempotent_of_first_line_not_blank ("First\n    indented")
    (Or.inr (by decide))

/-! ### Claim theorems for extraction, rendering and the entry point -/

theorem filterMap_undoc (u : List String) (rd : List RouteTuple) :
    rd.filterMap (fun t =>
        if u.contains t.view then none else some (mkMappedRoute t)) =
      (rd.filter (fun t => !u.contains t.view)).map mkMappedRoute := by
  induction rd with
  | nil => rfl
  | cons t ts ih =>
    rw [List.filterMap_cons, List.filter_cons]
    by_cases hc : u.contains t.view = true
    · rw [if_pos hc, hc]
      rw [if_neg (by decide)]
      exact ih
    · have hcf : u.contains t.view = false := Bool.eq_false_iff.mpr hc
      rw [if_neg hc, hcf]
      rw [if_pos (by decide), List.map_cons]
      rw [ih]

/-- C4: `get_routes` drops exactly the tuples whose view is in the
undocumented set (keeping the rest, mapped to records, in order), and in
particular when the set names the view of every tuple the result is empty. -/
theorem get_routes_drops_undocumented (route_data : List (List RouteTuple))
    (u : List String) :
    get_routes route_data (some u) =
      (route_data.map (fun rd =>
        (rd.filter (fun t => !u.contains t.view)).map mkMappedRoute)).flatten ∧
    ((∀ rd ∈ route_data, ∀ t ∈ rd, t.view ∈ u) →
      get_routes route_data (some u) = []) := by
  have heq : get_routes route_data (some u) =
      (route_data.map (fun rd =>
        (rd.filter (fun t => !u.contains t.view)).map mkMappedRoute)).flatten := by
    unfold get_routes
    congr 1
    exact List.map_congr_left (fun rd _ => filterMap_undoc u rd)
  refine ⟨heq, fun hall => ?_⟩
  rw [heq]
  rw [List.flatten_eq_nil_iff]
  intro l hl
  rcases List.mem_map.mp hl with ⟨rd, hrd, hrdl⟩
  rw [← hrdl]
  have hfil : rd.filter (fun t => !u.contains t.view) = [] := by
    rw [List.filter_eq_nil_iff]
    intro t ht
    have hc : u.contains t.view = true :=
      List.elem_eq_true_of_mem (hall rd hrd t ht)
    rw [hc]
    decide
  rw [hfil]
  rfl

/-- Witness for C4: a single route whose only view is undocumented yields
no records. -/
theorem get_routes_drops_undocumented_witness :
    get_routes [[⟨"home", "/", "views.home", "GET", none⟩]]
        (some ["views.home"]) = [] :=
  (get_routes_drops_undocumented
    [[⟨"home", "/", "views.home", "GET", none⟩]] ["views.home"]).2 (by decide)

/-- C5: for every `format` value other than `"custom"` and `"httpdomain"`,
`run` raises `Unsupported format`, and only after the route extraction has
been performed: the event trace is extraction first, then the raise. -/
theorem run_unsupported_format (fmt : String) (h1 : fmt ≠ "custom")
    (h2 : fmt ≠ "httpdomain") (undoc : Option String)
    (route_data : List (List RouteTuple)) (parse : String → List Node)
    (http_directive : String → String → String → List String)
    (nested_parse : List String → List Node) (serial : Nat) :
    run ⟨some fmt, undoc⟩ route_data parse http_directive nested_parse serial =
      [RunEvent.got_routes (get_routes route_data (undoc.map pySplit)),
       RunEvent.raised ("Unsupported format " ++ fmt)] := by
  unfold run
  simp [h1, h2]

/-- Witness for C5 with the unsupported format `"json"`. -/
theorem run_unsupported_format_witness :
    run ⟨some ("json"), none⟩ [] (fun _ => []) (fun _ _ _ => []) (fun _ => []) 0 =
      [RunEvent.got_routes [], RunEvent.raised ("Unsupported format json")] :=
  run_unsupported_format ("json") (by decide) (by decide) none [] (fun _ => [])
    (fun _ _ _ => []) (fun _ => []) 0

theorem enumFrom_eq_map_enum {α : Type} (rs : List α) :
    ∀ n : Nat, List.enumFrom n rs = rs.enum.map (fun p => (n + p.1, p.2)) := by
  induction rs with
  | nil => intro n; rfl
  | cons r rs ih =>
    intro n
    rw [List.enumFrom_cons, List.enum_cons, List.map_cons]
    refine List.cons_eq_cons.mpr ⟨rfl, ?_⟩
    rw [ih (n + 1), ih 1, List.map_map]
    apply List.map_congr_left
    intro p _
    show (n + 1 + p.1, p.2) = (n + (1 + p.1), p.2)
    rw [Nat.add_assoc]

theorem make_custom_rst_spec_cons (parse : String → List Node) (serial : Nat)
    (r : MappedRoute) (rs : List MappedRoute) :
    make_custom_rst_spec parse serial (r :: rs) =
      specSection parse serial r :: make_custom_rst_spec parse (serial + 1) rs := by
  unfold make_custom_rst_spec
  rw [List.enum_cons, List.map_cons]
  refine List.cons_eq_cons.mpr ⟨rfl, ?_⟩
  rw [enumFrom_eq_map_enum rs 1, List.map_map]
  apply List.map_congr_left
  intro p _
  show specSection parse (serial + (1 + p.1)) p.2 =
    specSection parse (serial + 1 + p.1) p.2
  rw [Nat.add_assoc]

theorem custom_section_content (parse : String → List Node) (serial : Nat)
    (r : MappedRoute) :
    Node.section' ["route-" ++ toString serial]
      ([Node.title r.pattern, real_table r] ++
        (if r.docs = "" then [] else (rst2node parse r.view r.docs).toList)) =
      specSection parse serial r := by
  by_cases hd : r.docs = ""
  · simp [specSection, hd, real_table]
  · simp only [specSection, if_neg hd, real_table]
    unfold rst2node specFragment
    rw [if_neg hd]
    rcases hp : parse r.docs with _ | ⟨c, _ | ⟨c2, t⟩⟩ <;> rfl

/-- C6: the custom renderer emits exactly one section per record, in input
order with consecutive serial ids, titled with the pattern of the record,
containing the fixed two-column 10/90 table with rows Module→view,
Request Method→method, Route Name→name, plus exactly one parsed fragment
when the docs are non-empty and none when they are empty. -/
theorem make_custom_rst_matches_spec (parse : String → List Node)
    (serial : Nat) (rs : List MappedRoute) :
    make_custom_rst parse serial rs = make_custom_rst_spec parse serial rs := by
  induction rs generalizing serial with
  | nil => rfl
  | cons r rs ih =>
    have hstep : make_custom_rst parse serial (r :: rs) =
        Node.section' ["route-" ++ toString serial]
          ([Node.title r.pattern, real_table r] ++
            (if r.docs = "" then []
             else (rst2node parse r.view r.docs).toList)) ::
        make_custom_rst parse (serial + 1) rs := rfl
    rw [hstep, custom_section_content, make_custom_rst_spec_cons, ih (serial + 1)]

/-- C7: `rst2node` returns nothing on empty input; returns the single parsed
node directly when the parse yields exactly one; wraps two or more parsed
nodes in one paragraph container, in order. -/
theorem rst2node_cases (parse : String → List Node) (doc_name data : String) :
    (data = "" → rst2node parse doc_name data = none) ∧
    (∀ c, data ≠ "" → parse data = [c] →
      rst2node parse doc_name data = some c) ∧
    (data ≠ "" → 2 ≤ (parse data).length →
      rst2node parse doc_name data = some (Node.paragraph (parse data))) := by
  refine ⟨?_, ?_, ?_⟩
  · intro h
    unfold rst2node
    rw [if_pos h]
  · intro c h hp
    unfold rst2node
    rw [if_neg h, hp]
  · intro h hlen
    unfold rst2node
    rw [if_neg h]
    rcases hp : parse data with _ | ⟨a, _ | ⟨b, t⟩⟩
    · rw [hp] at hlen
    · rw [hp] at hlen
      exact absurd hlen (by simp)
    · rfl

/-- Witness for C7: all three branches at concrete parsers and inputs. -/
theorem rst2node_cases_witness :
    rst2node (fun _ => [Node.text ("a")]) "doc" "" = none ∧
    rst2node (fun _ => [Node.text ("a")]) "doc" "x" = some (Node.text ("a")) ∧
    rst2node (fun _ => [Node.text ("a"), Node.text ("b")]) "doc" "x" =
      some (Node.paragraph [Node.text ("a"), Node.text ("b")]) :=
  ⟨(rst2node_cases (fun _ => [Node.text ("a")]) "doc" "").1 rfl,
   (rst2node_cases (fun _ => [Node.text ("a")]) "doc" "x").2.1
     (Node.text ("a")) (by decide) rfl,
   (rst2node_cases (fun _ => [Node.text ("a"), Node.text ("b")]) "doc" "x").2.2
     (by decide) (by decide)⟩

/-- C10: for non-empty input whose parse yields zero top-level nodes,
`rst2node` returns an empty paragraph container, not nothing. -/
theorem rst2node_zero_children (parse : String → List Node)
    (doc_name data : String) (h : data ≠ "") (hp : parse data = []) :
    rst2node parse doc_name data = some (Node.paragraph []) := by
  unfold rst2node
  rw [if_neg h, hp]

/-- Witness for C10: a parser producing no nodes on a non-empty input. -/
theorem rst2node_zero_children_witness :
    rst2node (fun _ => []) "doc" ".. comment" = some (Node.paragraph []) :=
  rst2node_zero_children (fun _ => []) "doc" ".. comment" (by decide) rfl

/-- C1 (code bug evidence): with two routes, `make_httpdomain_rst` re-parses
the accumulated line block each iteration, so the nodes of the first record
are emitted twice, while the independent-per-record model of the spec emits
the nodes of each record once, in order. -/
theorem make_httpdomain_rst_duplicates_first_record :
    make_httpdomain_rst (fun _ pattern _ => [pattern])
        (fun ls => ls.map Node.text)
        [⟨"a", "/a", "va", "GET", ""⟩, ⟨"b", "/b", "vb", "GET", ""⟩] =
      [Node.text ("/a"), Node.text ("/a"), Node.text ("/b")] ∧
    make_httpdomain_rst_indep (fun _ pattern _ => [pattern])
        (fun ls => ls.map Node.text)
        [⟨"a", "/a", "va", "GET", ""⟩, ⟨"b", "/b", "vb", "GET", ""⟩] =
      [Node.text ("/a"), Node.text ("/b")] :=
  ⟨rfl, rfl⟩

end PyramidAutodoc
